import Mathlib

/-
Verification of the SMA-crossover backtesting engine (backtesting.py).

The engine is embedded shallowly: prices, cash and commission rates are
rationals (the real-number semantics of the Python floats), the share
count is an integer, and the mutable fields of the BacktestingEngine
object (cash, position, trades, portfolio_values) form an explicit
state record threaded through the single forward pass of run_backtest.
The IndexError that data.iloc[-1] raises on an empty input is modelled
by an Option result.  The NaN-filtering of per-step returns in
calculate_performance is modelled separately on a four-constructor
float value type, because that code path distinguishes NaN from the
infinities that IEEE division by zero produces.
-/

/-- Side tag of a trade record, the BUY and SELL strings of the source. -/
inductive TradeSide where
  | BUY : TradeSide
  | SELL : TradeSide
deriving DecidableEq, Repr

/-- One trade record, the tuple (side, price, quantity) appended by buy and sell. -/
structure Trade where
  side : TradeSide
  price : ℚ
  quantity : ℤ
deriving DecidableEq, Repr

/-- The mutable fields of BacktestingEngine: cash, position, trades, portfolio_values. -/
structure EngineState where
  cash : ℚ
  position : ℤ
  trades : List Trade
  portfolio_values : List ℚ
deriving DecidableEq, Repr

/-- One row of the input frame: close price and signal, both already coerced
to scalars as the source does with float(...) and int(...). -/
abbrev Row : Type := ℚ × ℤ

/-- BacktestingEngine.buy: when no position is open, buy floor(cash / price)
shares, debit cost plus proportional commission, and append a BUY trade;
when the affordable quantity is not positive, do nothing. -/
def buy (price commission : ℚ) (s : EngineState) : EngineState :=
  if s.position = 0 then
    let quantity : ℤ := ⌊s.cash / price⌋
    if quantity ≤ 0 then s
    else
      let cost : ℚ := (quantity : ℚ) * price
      let commission_cost : ℚ := cost * commission
      { s with
          cash := s.cash - (cost + commission_cost)
          position := quantity
          trades := s.trades ++ [⟨TradeSide.BUY, price, quantity⟩] }
  else s

/-- BacktestingEngine.sell: when a position is open, sell all shares, credit
revenue minus proportional commission, and append a SELL trade. -/
def sell (price : ℚ) (commission : ℚ) (s : EngineState) : EngineState :=
  if 0 < s.position then
    let quantity : ℤ := s.position
    let revenue : ℚ := (quantity : ℚ) * price
    let commission_cost : ℚ := revenue * commission
    { s with
        cash := s.cash + (revenue - commission_cost)
        position := 0
        trades := s.trades ++ [⟨TradeSide.SELL, price, quantity⟩] }
  else s

/-- One iteration of the run_backtest loop at index i: read the current price,
the previous and the current signal, apply the buy crossover or the sell
crossover, then append cash + position * price to portfolio_values. -/
def run_step (commission : ℚ) (s : EngineState) (prev curr : Row) : EngineState :=
  let price : ℚ := curr.1
  let s1 : EngineState :=
    if prev.2 = -1 ∧ curr.2 = 1 then buy price commission s
    else if prev.2 = 1 ∧ curr.2 = -1 then sell price commission s
    else s
  { s1 with portfolio_values := s1.portfolio_values ++ [s1.cash + (s1.position : ℚ) * price] }

/-- The loop of run_backtest folded over the list of consecutive row pairs
(data at i-1, data at i) for i from 1 to the length of the data minus 1. -/
def run_steps (commission : ℚ) : EngineState → List (Row × Row) → EngineState
  | s, [] => s
  | s, p :: ps => run_steps commission (run_step commission s p.1 p.2) ps

/-- The engine state after the loop of run_backtest, starting from the
constructor state: cash = initial capital, no position, no trades, no
recorded portfolio values. -/
def backtest_state (data : List Row) (initial_capital commission : ℚ) : EngineState :=
  run_steps commission ⟨initial_capital, 0, [], []⟩ (data.zip data.tail)

/-- BacktestingEngine.run_backtest: run the loop, then return the final value
cash + position * last close together with the final state.  On an empty
input the read of the last close (iloc of -1) raises IndexError; that
failure is the none result. -/
def run_backtest (data : List Row) (initial_capital commission : ℚ) :
    Option (ℚ × EngineState) :=
  if data = [] then none
  else
    let s : EngineState := backtest_state data initial_capital commission
    some (s.cash + (s.position : ℚ) * (data.getLastD (0, 0)).1, s)

/-- IEEE-style value of one floating-point computation: a finite real, an
infinity, or NaN.  Only division can leave the finite range here, since the
portfolio values themselves are finite reals. -/
inductive FVal where
  | finite : ℚ → FVal
  | posInf : FVal
  | negInf : FVal
  | nan : FVal
deriving DecidableEq, Repr

/-- Whether np.isnan is true of the value. -/
def FVal.isNan : FVal → Bool
  | FVal.nan => true
  | _ => false

/-- Whether np.isfinite is true of the value. -/
def FVal.isFinite : FVal → Bool
  | FVal.finite _ => true
  | _ => false

/-- IEEE division of two finite values: a zero denominator yields NaN when the
numerator is zero, and a signed infinity otherwise. -/
def fdiv (a b : ℚ) : FVal :=
  if b = 0 then
    if a = 0 then FVal.nan
    else if 0 < a then FVal.posInf
    else FVal.negInf
  else FVal.finite (a / b)

/-- The per-step return series of calculate_performance:
np.diff(portfolio_values) / portfolio_values without the last entry, with
IEEE semantics for the division. -/
def step_returns (pvs : List ℚ) : List FVal :=
  List.zipWith (fun prev cur => fdiv (cur - prev) prev) pvs pvs.tail

/-- The filtering line of calculate_performance: keep exactly the entries at
which np.isnan is false. -/
def filtered_returns (pvs : List ℚ) : List FVal :=
  (step_returns pvs).filter (fun r => ! r.isNan)

/-- The np.maximum.accumulate recursion continued from a running maximum m. -/
def running_max_from (m : ℚ) : List ℚ → List ℚ
  | [] => []
  | x :: xs => max m x :: running_max_from (max m x) xs

/-- np.maximum.accumulate: the running maximum of the series up to and
including each index. -/
def running_max : List ℚ → List ℚ
  | [] => []
  | x :: xs => x :: running_max_from x xs

/-- The drawdown series of calculate_performance:
(portfolio_values - cumulative_max) / cumulative_max. -/
def drawdowns (pvs : List ℚ) : List ℚ :=
  List.zipWith (fun v m => (v - m) / m) pvs (running_max pvs)

/-- np.min of a list, as the left fold of min over the tail; the engine only
applies it to nonempty series, so the empty default is never read. -/
def min_list : List ℚ → ℚ
  | [] => 0
  | x :: xs => xs.foldl min x

/-- The Max Drawdown metric of calculate_performance. -/
def max_drawdown (pvs : List ℚ) : ℚ :=
  min_list (drawdowns pvs)

/-- The profits list of calculate_performance: consecutive disjoint pairs of
trades starting at the first one, each contributing
(price of the second - price of the first) * quantity of the first; an
unmatched trailing trade is dropped. -/
def pair_profits : List Trade → List ℚ
  | b :: s :: rest => (s.price - b.price) * (b.quantity : ℚ) :: pair_profits rest
  | _ => []

/-- The Win Ratio metric of calculate_performance: the number of positive
pair profits over the number of pairs, and 0 when no pair exists. -/
def win_ratio (trades : List Trade) : ℚ :=
  let profits : List ℚ := pair_profits trades
  if profits = [] then 0
  else ((profits.filter (fun p => 0 < p)).length : ℚ) / (profits.length : ℚ)

/-- The Total Return metric of calculate_performance:
(last portfolio value - initial capital) / initial capital. -/
def total_return (pvs : List ℚ) (initial_capital : ℚ) : ℚ :=
  (pvs.getLastD 0 - initial_capital) / initial_capital

/-- The metrics mapping returned by calculate_performance that the claims
refer to.  Annualized return involves a real exponentiation, so it lives
in the reals. -/
structure Perf where
  total_return : ℚ
  annualized_return : ℝ
  max_drawdown : ℚ
  win_ratio : ℚ

/-- BacktestingEngine.calculate_performance on the frozen engine state:
none when fewer than two portfolio values exist, otherwise the metrics.
The annualization exponent divides the periods per year, 252, by the
length of the whole data frame, data_len, not by the length of the
portfolio-value series. -/
noncomputable def calculate_performance (data_len : ℕ) (initial_capital : ℚ)
    (s : EngineState) : Option Perf :=
  if s.portfolio_values.length < 2 then none
  else
    let tr : ℚ := total_return s.portfolio_values initial_capital
    some { total_return := tr
           annualized_return := Real.rpow (1 + (tr : ℝ)) ((252 : ℝ) / (data_len : ℝ)) - 1
           max_drawdown := max_drawdown s.portfolio_values
           win_ratio := win_ratio s.trades }

set_option maxRecDepth 4000 in
/-- Claim C4: on the concrete input with prices 10, 12, 9, 15 and signals
-1, 1, 1, -1, with initial capital 1000 and commission rate 0, run_backtest
produces exactly the trade log BUY at 12 of 83 shares then SELL at 15 of 83
shares, final value 1249, and the portfolio-value series 1000, 751, 1249. -/
theorem run_backtest_concrete_example :
    run_backtest [((10 : ℚ), (-1 : ℤ)), (12, 1), (9, 1), (15, -1)] 1000 0 =
      some (1249, ⟨1249, 0,
        [⟨TradeSide.BUY, 12, 83⟩, ⟨TradeSide.SELL, 15, 83⟩],
        [1000, 751, 1249]⟩) := by
  with_unfolding_all decide

/-- Claim C1, counterexample: on the empty input sequence, run_backtest does
not produce a final value equal to the initial capital; the read of the last
close price fails (IndexError in the source, the none result here), so the
claim that no exception is raised for every input with fewer than 2
observations is false at the empty input. -/
theorem run_backtest_empty_input_fails :
    run_backtest [] 1000 0 = none := by
  with_unfolding_all decide

/-- Claim C1, amended: for every input sequence with exactly one observation,
run_backtest produces an empty portfolio-value series, an empty trade log,
and a final value exactly equal to the initial capital; on the empty
sequence the read of the last close price fails instead. -/
theorem run_backtest_single_observation (data : List Row)
    (initial_capital commission : ℚ) (h : data.length = 1) :
    run_backtest data initial_capital commission =
      some (initial_capital, ⟨initial_capital, 0, [], []⟩) := by
  match data, h with
  | [d], _ =>
    simp [run_backtest, backtest_state, run_steps, List.zip]

/-- Witness for the amended claim C1 at a concrete one-row input. -/
theorem run_backtest_single_observation_witness :
    run_backtest [((7 : ℚ), (1 : ℤ))] 500 (1 / 100) =
      some (500, ⟨500, 0, [], []⟩) :=
  run_backtest_single_observation [((7 : ℚ), (1 : ℤ))] 500 (1 / 100) (by decide)

/-- Claim C5: at every step whose previous signal is -1, whose current signal
is 1, and whose state holds no open position, the engine applies the entry
rule: when the affordable quantity floor(cash / price) is not positive, the
cash, the position and the trade log are unchanged and no trade is appended;
otherwise the position becomes that quantity, the cash decreases by exactly
quantity * price * (1 + commission rate), and a BUY trade of that price and
quantity is appended. -/
theorem entry_rule (s : EngineState) (commission : ℚ) (prev curr : Row)
    (hprev : prev.2 = -1) (hcurr : curr.2 = 1) (hpos : s.position = 0) :
    (⌊s.cash / curr.1⌋ ≤ 0 →
      (run_step commission s prev curr).cash = s.cash ∧
        (run_step commission s prev curr).position = s.position ∧
        (run_step commission s prev curr).trades = s.trades) ∧
    (0 < ⌊s.cash / curr.1⌋ →
      (run_step commission s prev curr).cash =
          s.cash - (⌊s.cash / curr.1⌋ : ℚ) * curr.1 * (1 + commission) ∧
        (run_step commission s prev curr).position = ⌊s.cash / curr.1⌋ ∧
        (run_step commission s prev curr).trades =
          s.trades ++ [⟨TradeSide.BUY, curr.1, ⌊s.cash / curr.1⌋⟩]) := by
  constructor
  · intro hq
    simp [run_step, buy, hprev, hcurr, hpos, hq]
  · intro hq
    have hq2 : ¬ (⌊s.cash / curr.1⌋ ≤ 0) := not_le.mpr hq
    simp [run_step, buy, hprev, hcurr, hpos, hq2]
    ring

/-- Witness for claim C5 at a concrete state and rows: cash 1000, no open
position, price 12, commission 0, previous signal -1, current signal 1. -/
theorem entry_rule_witness :
    ((⌊(1000 : ℚ) / 12⌋ ≤ 0 →
      (run_step 0 ⟨1000, 0, [], []⟩ (10, -1) (12, 1)).cash = 1000 ∧
        (run_step 0 ⟨1000, 0, [], []⟩ (10, -1) (12, 1)).position = 0 ∧
        (run_step 0 ⟨1000, 0, [], []⟩ (10, -1) (12, 1)).trades = []) ∧
    (0 < ⌊(1000 : ℚ) / 12⌋ →
      (run_step 0 ⟨1000, 0, [], []⟩ (10, -1) (12, 1)).cash =
          1000 - (⌊(1000 : ℚ) / 12⌋ : ℚ) * 12 * (1 + 0) ∧
        (run_step 0 ⟨1000, 0, [], []⟩ (10, -1) (12, 1)).position = ⌊(1000 : ℚ) / 12⌋ ∧
        (run_step 0 ⟨1000, 0, [], []⟩ (10, -1) (12, 1)).trades =
          [] ++ [⟨TradeSide.BUY, 12, ⌊(1000 : ℚ) / 12⌋⟩])) :=
  entry_rule ⟨1000, 0, [], []⟩ 0 (10, -1) (12, 1) rfl rfl rfl

/-- Claim C6: at every step whose previous signal is 1 and whose current
signal is -1, the engine applies the exit rule: with an open position of q
shares the cash increases by exactly q * price * (1 - commission rate), the
position becomes 0 and a SELL trade of that price and q shares is appended;
with no open position the cash, the position and the trade log are
unchanged and no trade is appended. -/
theorem exit_rule (s : EngineState) (commission : ℚ) (prev curr : Row)
    (hprev : prev.2 = 1) (hcurr : curr.2 = -1) :
    (s.position = 0 →
      (run_step commission s prev curr).cash = s.cash ∧
        (run_step commission s prev curr).position = s.position ∧
        (run_step commission s prev curr).trades = s.trades) ∧
    (0 < s.position →
      (run_step commission s prev curr).cash =
          s.cash + (s.position : ℚ) * curr.1 * (1 - commission) ∧
        (run_step commission s prev curr).position = 0 ∧
        (run_step commission s prev curr).trades =
          s.trades ++ [⟨TradeSide.SELL, curr.1, s.position⟩]) := by
  constructor
  · intro hq
    simp [run_step, sell, hprev, hcurr, hq]
  · intro hq
    simp [run_step, sell, hprev, hcurr, hq]
    ring

/-- Witness for claim C6 at a concrete state and rows: cash 4, an open
position of 83 shares, price 15, commission 0, previous signal 1, current
signal -1. -/
theorem exit_rule_witness :
    (((83 : ℤ) = 0 →
      (run_step 0 ⟨4, 83, [], []⟩ (9, 1) (15, -1)).cash = 4 ∧
        (run_step 0 ⟨4, 83, [], []⟩ (9, 1) (15, -1)).position = 83 ∧
        (run_step 0 ⟨4, 83, [], []⟩ (9, 1) (15, -1)).trades = []) ∧
    ((0 : ℤ) < 83 →
      (run_step 0 ⟨4, 83, [], []⟩ (9, 1) (15, -1)).cash =
          4 + ((83 : ℤ) : ℚ) * 15 * (1 - 0) ∧
        (run_step 0 ⟨4, 83, [], []⟩ (9, 1) (15, -1)).position = 0 ∧
        (run_step 0 ⟨4, 83, [], []⟩ (9, 1) (15, -1)).trades =
          [] ++ [⟨TradeSide.SELL, 15, 83⟩])) :=
  exit_rule ⟨4, 83, [], []⟩ 0 (9, 1) (15, -1) rfl rfl

/-- Claim C2, counterexample: on the portfolio-value series 0, 1 the
per-step return is an infinity, obtained by dividing the nonzero change by
the zero previous value, and it survives the filtering line because
np.isnan is false of an infinity; so the claim that every non-finite
per-step return is removed is false at this length-2 series. -/
theorem infinite_return_survives_filter :
    FVal.posInf ∈ filtered_returns [0, 1] ∧ FVal.posInf.isFinite = false := by
  with_unfolding_all decide

/-- Claim C2, amended: for every portfolio-value series, exactly the NaN
per-step returns are removed before the aggregate statistics are computed:
no NaN value survives the filter and every non-NaN value, the infinities
included, is kept. -/
theorem only_nan_returns_filtered (pvs : List ℚ) :
    (∀ r ∈ filtered_returns pvs, r ≠ FVal.nan) ∧
    (∀ r ∈ step_returns pvs, r ≠ FVal.nan → r ∈ filtered_returns pvs) := by
  constructor
  · intro r hr he
    have hb := List.of_mem_filter hr
    subst he
    simp [FVal.isNan] at hb
  · intro r hr hn
    refine List.mem_filter.mpr ⟨hr, ?_⟩
    cases r <;> simp [FVal.isNan] at hn ⊢

/-- Witness for the amended claim C2 at a concrete series with a NaN
return, an infinite return and a finite return. -/
theorem only_nan_returns_filtered_witness :
    (∀ r ∈ filtered_returns [0, 0, 1, 2], r ≠ FVal.nan) ∧
    (∀ r ∈ step_returns [0, 0, 1, 2], r ≠ FVal.nan →
      r ∈ filtered_returns [0, 0, 1, 2]) :=
  only_nan_returns_filtered [0, 0, 1, 2]

/-- Claim C3, counterexample: with the valid inputs of the claim, a price
series of 10 then 10 with signals -1 then 1, initial capital 10 and
commission rate one half, the single buy spends the whole cash on one share
and then debits the commission on top, leaving the cash at -5, which is
negative; so the non-negativity of cash fails for a positive commission
rate inside the interval of the claim. -/
theorem cash_negative_with_commission :
    (0 : ℚ) < 10 ∧ ((0 : ℚ) ≤ 1 / 2 ∧ (1 : ℚ) / 2 < 1) ∧
      (backtest_state [(10, -1), (10, 1)] 10 (1 / 2)).cash < 0 := by
  with_unfolding_all decide

lemma buy_zero_commission_nonneg (price : ℚ) (s : EngineState)
    (hprice : 0 < price) (hcash : 0 ≤ s.cash) (hpos : 0 ≤ s.position) :
    0 ≤ (buy price 0 s).cash ∧ 0 ≤ (buy price 0 s).position := by
  unfold buy
  by_cases h0 : s.position = 0
  · by_cases hq : (⌊s.cash / price⌋ : ℤ) ≤ 0
    · simp [h0, hq, hcash]
    · have hq2 : 0 < ⌊s.cash / price⌋ := lt_of_not_le hq
      have hfl : (⌊s.cash / price⌋ : ℚ) ≤ s.cash / price := Int.floor_le _
      have hmul : (⌊s.cash / price⌋ : ℚ) * price ≤ s.cash / price * price :=
        mul_le_mul_of_nonneg_right hfl hprice.le
      rw [div_mul_cancel₀ _ (ne_of_gt hprice)] at hmul
      simp [h0, hq]
      constructor
      · linarith
      · exact_mod_cast hq2.le
  · simp [h0, hcash, hpos]

lemma sell_zero_commission_nonneg (price : ℚ) (s : EngineState)
    (hprice : 0 < price) (hcash : 0 ≤ s.cash) (hpos : 0 ≤ s.position) :
    0 ≤ (sell price 0 s).cash ∧ 0 ≤ (sell price 0 s).position := by
  unfold sell
  by_cases h0 : 0 < s.position
  · have hrev : 0 ≤ (s.position : ℚ) * price :=
      mul_nonneg (by exact_mod_cast hpos) hprice.le
    simp [h0]
    linarith
  · simp [h0, hcash, hpos]

lemma run_step_zero_commission_nonneg (s : EngineState) (prev curr : Row)
    (hprice : 0 < curr.1) (hcash : 0 ≤ s.cash) (hpos : 0 ≤ s.position) :
    0 ≤ (run_step 0 s prev curr).cash ∧ 0 ≤ (run_step 0 s prev curr).position := by
  by_cases hb1 : prev.2 = -1 ∧ curr.2 = 1
  · simpa [run_step, hb1.1, hb1.2] using
      buy_zero_commission_nonneg curr.1 s hprice hcash hpos
  · by_cases hs1 : prev.2 = 1 ∧ curr.2 = -1
    · simpa [run_step, hs1.1, hs1.2] using
        sell_zero_commission_nonneg curr.1 s hprice hcash hpos
    · simpa [run_step, hb1, hs1] using And.intro hcash hpos

/-- Claim C3, amended: with a commission rate of exactly 0 and positive
prices, the simulation state keeps a non-negative cash balance and a
non-negative position through every step: the invariant is preserved by
run_steps from any state that satisfies it, hence it holds after every
step of run_backtest, whose loop is run_steps started from the initial
state with positive capital and empty holdings. -/
theorem cash_nonneg_zero_commission (pairs : List (Row × Row))
    (s : EngineState) (hcash : 0 ≤ s.cash) (hpos : 0 ≤ s.position)
    (hprice : ∀ p ∈ pairs, 0 < p.2.1) :
    0 ≤ (run_steps 0 s pairs).cash ∧ 0 ≤ (run_steps 0 s pairs).position := by
  induction pairs generalizing s with
  | nil => exact ⟨hcash, hpos⟩
  | cons p ps ih =>
    have hp : 0 < p.2.1 := hprice p (List.mem_cons_self p ps)
    have hstep : 0 ≤ (run_step 0 s p.1 p.2).cash ∧
        0 ≤ (run_step 0 s p.1 p.2).position :=
      run_step_zero_commission_nonneg s p.1 p.2 hp hcash hpos
    exact ih (run_step 0 s p.1 p.2) hstep.1 hstep.2
      (fun q hq => hprice q (List.mem_cons_of_mem p hq))

/-- Witness for the amended claim C3 at a concrete crossover step with
positive price, positive capital and zero commission. -/
theorem cash_nonneg_zero_commission_witness :
    0 ≤ (run_steps 0 ⟨1000, 0, [], []⟩ [((10, -1), (12, 1))]).cash ∧
      0 ≤ (run_steps 0 ⟨1000, 0, [], []⟩ [((10, -1), (12, 1))]).position :=
  cash_nonneg_zero_commission [((10, -1), (12, 1))] ⟨1000, 0, [], []⟩
    (by norm_num) (by norm_num) (by intro p hp; simp at hp; simp [hp])

/-- Claim C8: for every trade log the win ratio lies in the closed unit
interval, equals the number of consecutive disjoint trade pairs with
positive profit (price of the second minus price of the first, times the
quantity of the first) divided by the number of such pairs, an unmatched
trailing trade being excluded, and is exactly 0 when the trade log has
fewer than 2 entries. -/
theorem win_ratio_props (trades : List Trade) :
    (0 ≤ win_ratio trades ∧ win_ratio trades ≤ 1) ∧
    win_ratio trades =
      (((pair_profits trades).filter (fun p => 0 < p)).length : ℚ) /
        ((pair_profits trades).length : ℚ) ∧
    (trades.length < 2 → win_ratio trades = 0) := by
  have hshort : trades.length < 2 → pair_profits trades = [] := by
    match trades with
    | [] => intro _; rfl
    | [t] => intro _; rfl
    | a :: b :: rest =>
      intro h
      simp only [List.length_cons] at h
      omega
  by_cases hp : pair_profits trades = []
  · have h0 : win_ratio trades = 0 := by simp [win_ratio, hp]
    refine ⟨⟨?_, ?_⟩, ?_, fun _ => h0⟩
    · simp [h0]
    · simp [h0]
    · rw [h0, hp]
      simp
  · have hlen : 0 < ((pair_profits trades).length : ℚ) := by
      have : pair_profits trades ≠ [] := hp
      have h0 : 0 < (pair_profits trades).length := List.length_pos.mpr this
      exact_mod_cast h0
    have heq : win_ratio trades =
        (((pair_profits trades).filter (fun p => 0 < p)).length : ℚ) /
          ((pair_profits trades).length : ℚ) := by
      simp [win_ratio, hp]
    refine ⟨⟨?_, ?_⟩, heq, ?_⟩
    · rw [heq]
      exact div_nonneg (Nat.cast_nonneg _) (Nat.cast_nonneg _)
    · rw [heq]
      rw [div_le_one hlen]
      exact_mod_cast List.length_filter_le (fun p => 0 < p) (pair_profits trades)
    · intro h
      exact absurd (hshort h) hp

/-- Witness for claim C8 at a concrete trade log with one winning pair and
one losing pair. -/
theorem win_ratio_props_witness :
    (0 ≤ win_ratio
        [⟨TradeSide.BUY, 10, 3⟩, ⟨TradeSide.SELL, 11, 3⟩,
          ⟨TradeSide.BUY, 9, 2⟩, ⟨TradeSide.SELL, 8, 2⟩] ∧
      win_ratio
        [⟨TradeSide.BUY, 10, 3⟩, ⟨TradeSide.SELL, 11, 3⟩,
          ⟨TradeSide.BUY, 9, 2⟩, ⟨TradeSide.SELL, 8, 2⟩] ≤ 1) ∧
    win_ratio
        [⟨TradeSide.BUY, 10, 3⟩, ⟨TradeSide.SELL, 11, 3⟩,
          ⟨TradeSide.BUY, 9, 2⟩, ⟨TradeSide.SELL, 8, 2⟩] =
      (((pair_profits
            [⟨TradeSide.BUY, 10, 3⟩, ⟨TradeSide.SELL, 11, 3⟩,
              ⟨TradeSide.BUY, 9, 2⟩, ⟨TradeSide.SELL, 8, 2⟩]).filter
          (fun p => 0 < p)).length : ℚ) /
        ((pair_profits
            [⟨TradeSide.BUY, 10, 3⟩, ⟨TradeSide.SELL, 11, 3⟩,
              ⟨TradeSide.BUY, 9, 2⟩, ⟨TradeSide.SELL, 8, 2⟩]).length : ℚ) ∧
    (([⟨TradeSide.BUY, 10, 3⟩, ⟨TradeSide.SELL, 11, 3⟩,
        ⟨TradeSide.BUY, 9, 2⟩, ⟨TradeSide.SELL, 8, 2⟩] : List Trade).length < 2 →
      win_ratio
        [⟨TradeSide.BUY, 10, 3⟩, ⟨TradeSide.SELL, 11, 3⟩,
          ⟨TradeSide.BUY, 9, 2⟩, ⟨TradeSide.SELL, 8, 2⟩] = 0) :=
  win_ratio_props
    [⟨TradeSide.BUY, 10, 3⟩, ⟨TradeSide.SELL, 11, 3⟩,
      ⟨TradeSide.BUY, 9, 2⟩, ⟨TradeSide.SELL, 8, 2⟩]

lemma foldl_min_le_start (xs : List ℚ) : ∀ a : ℚ, xs.foldl min a ≤ a := by
  induction xs with
  | nil => intro a; exact le_refl a
  | cons x xs ih =>
    intro a
    calc (x :: xs).foldl min a = xs.foldl min (min a x) := rfl
    _ ≤ min a x := ih (min a x)
    _ ≤ a := min_le_left a x

lemma foldl_min_le_mem (xs : List ℚ) : ∀ a y : ℚ, y ∈ xs → xs.foldl min a ≤ y := by
  induction xs with
  | nil => intro a y hy; exact absurd hy (List.not_mem_nil y)
  | cons x xs ih =>
    intro a y hy
    rcases List.mem_cons.mp hy with h | h
    · subst h
      calc (y :: xs).foldl min a = xs.foldl min (min a y) := rfl
      _ ≤ min a y := foldl_min_le_start xs (min a y)
      _ ≤ y := min_le_right a y
    · exact ih (min a x) y h

lemma le_foldl_min (xs : List ℚ) : ∀ a b : ℚ, b ≤ a → (∀ y ∈ xs, b ≤ y) →
    b ≤ xs.foldl min a := by
  induction xs with
  | nil => intro a b hb _; exact hb
  | cons x xs ih =>
    intro a b hb hy
    exact ih (min a x) b (le_min hb (hy x (List.mem_cons_self x xs)))
      (fun y h => hy y (List.mem_cons_of_mem x h))

lemma running_max_from_drawdown_nonpos (xs : List ℚ) : ∀ m : ℚ, 0 < m →
    (∀ x ∈ xs, 0 < x) →
    ∀ d ∈ List.zipWith (fun v mm => (v - mm) / mm) xs (running_max_from m xs),
      d ≤ 0 := by
  induction xs with
  | nil => intro m _ _ d hd; simp [running_max_from] at hd
  | cons x xs ih =>
    intro m hm hx d hd
    rw [running_max_from, List.zipWith_cons_cons] at hd
    have hmx : 0 < max m x := lt_of_lt_of_le hm (le_max_left m x)
    rcases List.mem_cons.mp hd with h | h
    · subst h
      exact div_nonpos_iff.mpr
        (Or.inr ⟨sub_nonpos.mpr (le_max_right m x), hmx.le⟩)
    · exact ih (max m x) hmx
        (fun y hy => hx y (List.mem_cons_of_mem x hy)) d h

lemma running_max_from_drawdown_zero_iff (xs : List ℚ) : ∀ m : ℚ, 0 < m →
    (∀ x ∈ xs, 0 < x) →
    ((∀ d ∈ List.zipWith (fun v mm => (v - mm) / mm) xs (running_max_from m xs),
        d = 0) ↔ List.Chain (fun a b => a ≤ b) m xs) := by
  induction xs with
  | nil => intro m _ _; simp [running_max_from]
  | cons x xs ih =>
    intro m hm hx
    have hx0 : 0 < x := hx x (List.mem_cons_self x xs)
    have hxs : ∀ y ∈ xs, 0 < y := fun y hy => hx y (List.mem_cons_of_mem x hy)
    have hmx : 0 < max m x := lt_of_lt_of_le hm (le_max_left m x)
    rw [running_max_from, List.zipWith_cons_cons, List.forall_mem_cons,
      List.chain_cons]
    have hhead : (x - max m x) / max m x = 0 ↔ m ≤ x := by
      rw [div_eq_zero_iff]
      constructor
      · rintro (h | h)
        · exact max_eq_right_iff.mp (by linarith [sub_eq_zero.mp h])
        · exact absurd h (ne_of_gt hmx)
      · intro h
        left
        rw [max_eq_right h, sub_self]
    constructor
    · rintro ⟨hd, hrest⟩
      have hmlex : m ≤ x := hhead.mp hd
      refine ⟨hmlex, ?_⟩
      rw [max_eq_right hmlex] at hrest
      exact (ih x hx0 hxs).mp hrest
    · rintro ⟨hmlex, hchain⟩
      refine ⟨hhead.mpr hmlex, ?_⟩
      rw [max_eq_right hmlex]
      exact (ih x hx0 hxs).mpr hchain

/-- Claim C7, counterexample: on the length-2 portfolio-value series -1, -2
the running maximum stays at -1, so the second drawdown entry is the
positive value 1 and the minimum over the series is the first entry 0; the
computed max drawdown is therefore 0 although the series is strictly
decreasing, refuting the claimed equivalence between a zero max drawdown
and a non-decreasing series. -/
theorem max_drawdown_zero_on_decreasing_series :
    max_drawdown [-1, -2] = 0 ∧
      ¬ List.Chain' (fun a b : ℚ => a ≤ b) [-1, -2] := by
  constructor
  · with_unfolding_all decide
  · intro h
    have h2 : (-1 : ℚ) ≤ -2 := (List.chain'_cons.mp h).1
    norm_num at h2

/-- Claim C7, amended: for every portfolio-value series of length at least 2
all of whose values are positive, the max drawdown computed by
calculate_performance, the minimum over the series of
(value - running maximum) / running maximum, is at most 0, and it equals 0
exactly when the series is non-decreasing; for series with non-positive
values the equivalence fails, as the counterexample shows. -/
theorem max_drawdown_nonpos_and_zero_iff_monotone (pvs : List ℚ)
    (hlen : 2 ≤ pvs.length) (hpos : ∀ v ∈ pvs, 0 < v) :
    max_drawdown pvs ≤ 0 ∧
      (max_drawdown pvs = 0 ↔ List.Chain' (fun a b : ℚ => a ≤ b) pvs) := by
  match pvs, hlen with
  | v :: rest, _ =>
    have hv : 0 < v := hpos v (List.mem_cons_self v rest)
    have hrest : ∀ y ∈ rest, 0 < y := fun y hy =>
      hpos y (List.mem_cons_of_mem v hy)
    have hdd : drawdowns (v :: rest) =
        0 :: List.zipWith (fun x mm => (x - mm) / mm) rest
          (running_max_from v rest) := by
      rw [drawdowns, running_max, List.zipWith_cons_cons, sub_self, zero_div]
    have hmd : max_drawdown (v :: rest) =
        (List.zipWith (fun x mm => (x - mm) / mm) rest
          (running_max_from v rest)).foldl min 0 := by
      rw [max_drawdown, hdd, min_list]
    have hnonpos := running_max_from_drawdown_nonpos rest v hv hrest
    have hchain : List.Chain' (fun a b : ℚ => a ≤ b) (v :: rest) ↔
        List.Chain (fun a b : ℚ => a ≤ b) v rest := Iff.rfl
    constructor
    · rw [hmd]
      exact foldl_min_le_start _ 0
    · rw [hmd, hchain, ← running_max_from_drawdown_zero_iff rest v hv hrest]
      constructor
      · intro h0 d hd
        have hle : (List.zipWith (fun x mm => (x - mm) / mm) rest
            (running_max_from v rest)).foldl min 0 ≤ d :=
          foldl_min_le_mem _ 0 d hd
        rw [h0] at hle
        exact le_antisymm (hnonpos d hd) hle
      · intro hall
        have h1 : (List.zipWith (fun x mm => (x - mm) / mm) rest
            (running_max_from v rest)).foldl min 0 ≤ 0 :=
          foldl_min_le_start _ 0
        have h2 : (0 : ℚ) ≤ (List.zipWith (fun x mm => (x - mm) / mm) rest
            (running_max_from v rest)).foldl min 0 :=
          le_foldl_min _ 0 0 (le_refl 0) (fun y hy => (hall y hy).ge)
        linarith

/-- Witness for the amended claim C7 at the concrete positive non-decreasing
series 1, 2. -/
theorem max_drawdown_nonpos_and_zero_iff_monotone_witness :
    max_drawdown [1, 2] ≤ 0 ∧
      (max_drawdown [1, 2] = 0 ↔
        List.Chain' (fun a b : ℚ => a ≤ b) [1, 2]) :=
  max_drawdown_nonpos_and_zero_iff_monotone [1, 2] (by decide)
    (by intro v hv; rcases List.mem_cons.mp hv with h | h;
        · subst h; norm_num
        · simp at h; subst h; norm_num)

lemma buy_portfolio_values (price commission : ℚ) (s : EngineState) :
    (buy price commission s).portfolio_values = s.portfolio_values := by
  unfold buy
  by_cases h0 : s.position = 0
  · by_cases hq : (⌊s.cash / price⌋ : ℤ) ≤ 0
    · simp [h0, hq]
    · simp [h0, hq]
  · simp [h0]

lemma sell_portfolio_values (price commission : ℚ) (s : EngineState) :
    (sell price commission s).portfolio_values = s.portfolio_values := by
  unfold sell
  split
  · rfl
  · rfl

lemma run_step_pv_length (commission : ℚ) (s : EngineState) (prev curr : Row) :
    (run_step commission s prev curr).portfolio_values.length =
      s.portfolio_values.length + 1 := by
  unfold run_step
  split
  · simp [buy_portfolio_values]
  · split
    · simp [sell_portfolio_values]
    · simp

lemma run_steps_pv_length (commission : ℚ) :
    ∀ (pairs : List (Row × Row)) (s : EngineState),
      (run_steps commission s pairs).portfolio_values.length =
        s.portfolio_values.length + pairs.length := by
  intro pairs
  induction pairs with
  | nil => intro s; rfl
  | cons p ps ih =>
    intro s
    rw [run_steps, ih, run_step_pv_length]
    simp [Nat.add_comm, Nat.add_assoc, Nat.add_left_comm]

/-- Claim C9: for every input with at least 2 portfolio-value observations,
calculate_performance returns metrics whose annualized return equals
(1 + total return) to the power 252 / N minus 1, where N is the length of
the original price series, which exceeds the length of the portfolio-value
series by exactly one. -/
theorem annualization_uses_price_series_length (data : List Row)
    (initial_capital commission : ℚ) (h : 3 ≤ data.length) :
    ∃ p : Perf,
      calculate_performance data.length initial_capital
          (backtest_state data initial_capital commission) = some p ∧
      p.annualized_return =
        Real.rpow
          (1 + ((total_return
              (backtest_state data initial_capital commission).portfolio_values
              initial_capital : ℚ) : ℝ))
          ((252 : ℝ) / (data.length : ℝ)) - 1 ∧
      data.length =
        (backtest_state data initial_capital commission).portfolio_values.length
          + 1 := by
  have hpv : (backtest_state data initial_capital commission).portfolio_values.length
      = data.length - 1 := by
    unfold backtest_state
    rw [run_steps_pv_length]
    simp [List.length_zip, List.length_tail]
  have hlt : ¬ ((backtest_state data initial_capital
      commission).portfolio_values.length < 2) := by
    omega
  unfold calculate_performance
  rw [if_neg hlt]
  exact ⟨_, rfl, rfl, by omega⟩

/-- Witness for claim C9 at a concrete three-row input with constant price
and signal. -/
theorem annualization_uses_price_series_length_witness :
    ∃ p : Perf,
      calculate_performance
          ([((1 : ℚ), (1 : ℤ)), (1, 1), (1, 1)]).length 1000
          (backtest_state [((1 : ℚ), (1 : ℤ)), (1, 1), (1, 1)] 1000 0) = some p ∧
      p.annualized_return =
        Real.rpow
          (1 + ((total_return
              (backtest_state [((1 : ℚ), (1 : ℤ)), (1, 1), (1, 1)] 1000
                0).portfolio_values 1000 : ℚ) : ℝ))
          ((252 : ℝ) / (([((1 : ℚ), (1 : ℤ)), (1, 1), (1, 1)]).length : ℝ)) - 1 ∧
      ([((1 : ℚ), (1 : ℤ)), (1, 1), (1, 1)]).length =
        (backtest_state [((1 : ℚ), (1 : ℤ)), (1, 1), (1, 1)] 1000
          0).portfolio_values.length + 1 :=
  annualization_uses_price_series_length [((1 : ℚ), (1 : ℤ)), (1, 1), (1, 1)]
    1000 0 (by decide)

lemma getLastD_cons_default_irrel (l : List (Row × Row)) (a d₁ d₂ : Row × Row) :
    (a :: l).getLastD d₁ = (a :: l).getLastD d₂ := by
  rw [List.getLastD_cons, List.getLastD_cons]

lemma run_steps_last_pv (commission : ℚ) :
    ∀ (ps : List (Row × Row)) (p : Row × Row) (s : EngineState),
      (run_steps commission s (p :: ps)).portfolio_values.getLastD 0 =
        (run_steps commission s (p :: ps)).cash +
          ((run_steps commission s (p :: ps)).position : ℚ) *
            ((p :: ps).getLastD p).2.1 := by
  intro ps
  induction ps with
  | nil =>
    intro p s
    show (run_step commission s p.1 p.2).portfolio_values.getLastD 0 =
      (run_step commission s p.1 p.2).cash +
        ((run_step commission s p.1 p.2).position : ℚ) * ([p].getLastD p).2.1
    unfold run_step
    simp [List.getLastD_concat, List.getLastD_cons]
  | cons q ps ih =>
    intro p s
    rw [run_steps]
    rw [ih q (run_step commission s p.1 p.2)]
    rw [List.getLastD_cons, List.getLastD_cons, List.getLastD_cons]

lemma zip_tail_getLastD (l : List Row) : ∀ a b : Row,
    (((a :: b :: l).zip (b :: l)).getLastD (a, b)).2 = (b :: l).getLastD b := by
  induction l with
  | nil => intro a b; rfl
  | cons c l ih =>
    intro a b
    rw [show ((a :: b :: c :: l).zip (b :: c :: l)) =
      (a, b) :: ((b :: c :: l).zip (c :: l)) from rfl]
    rw [List.getLastD_cons]
    rw [show ((b :: c :: l).zip (c :: l)) =
      (b, c) :: ((c :: l).zip l) from rfl]
    rw [getLastD_cons_default_irrel (((c :: l).zip l)) (b, c) (a, b) (b, c)]
    rw [show ((b, c) : Row × Row) :: ((c :: l).zip l) =
      ((b :: c :: l).zip (c :: l)) from rfl]
    rw [ih b c]
    rw [List.getLastD_cons, List.getLastD_cons, List.getLastD_cons]

/-- Claim C10: for every input price and signal sequence of length at least
2, the final value returned by run_backtest equals the last element of the
portfolio-value series it recorded: both are cash plus position times the
price at the last index. -/
theorem final_value_matches_last_portfolio_value (data : List Row)
    (initial_capital commission : ℚ) (h : 2 ≤ data.length) :
    ∃ final s, run_backtest data initial_capital commission =
        some (final, s) ∧
      s.portfolio_values.getLastD 0 = final := by
  match data, h with
  | a :: b :: l, _ =>
    have hmain : run_backtest (a :: b :: l) initial_capital commission =
        some ((backtest_state (a :: b :: l) initial_capital commission).cash +
            ((backtest_state (a :: b :: l) initial_capital
              commission).position : ℚ) * ((a :: b :: l).getLastD (0, 0)).1,
          backtest_state (a :: b :: l) initial_capital commission) := by
      unfold run_backtest
      rw [if_neg (by simp)]
    refine ⟨_, _, hmain, ?_⟩
    show (backtest_state (a :: b :: l) initial_capital
        commission).portfolio_values.getLastD 0 =
      (backtest_state (a :: b :: l) initial_capital commission).cash +
        ((backtest_state (a :: b :: l) initial_capital
          commission).position : ℚ) *
          ((a :: b :: l).getLastD (0, 0)).1
    unfold backtest_state
    rw [show ((a :: b :: l).zip ((a :: b :: l).tail)) =
      (a, b) :: ((b :: l).zip l) from rfl]
    rw [run_steps_last_pv commission ((b :: l).zip l) (a, b)]
    rw [show ((a, b) : Row × Row) :: ((b :: l).zip l) =
      ((a :: b :: l).zip (b :: l)) from rfl]
    rw [zip_tail_getLastD l a b]
    rw [List.getLastD_cons, List.getLastD_cons, List.getLastD_cons]

/-- Witness for claim C10 at a concrete two-row input. -/
theorem final_value_matches_last_portfolio_value_witness :
    ∃ final s, run_backtest [((5 : ℚ), (1 : ℤ)), (6, 1)] 100 0 =
        some (final, s) ∧
      s.portfolio_values.getLastD 0 = final :=
  final_value_matches_last_portfolio_value [((5 : ℚ), (1 : ℤ)), (6, 1)] 100 0
    (by decide)
